import Mathlib

/-!
Verification of the `ctrl-z` crate (`src/lib.rs`): the `ReadToCtrlZ` wrapper
truncates a byte stream at the first occurrence of the byte `0x1A`.

The embedding is shallow.  Bytes are modelled as `Nat` (only equality with the
sentinel value `26 = 0x1A` matters).  A single call to the wrapper's `read` is a
pure function of the wrapper's `terminated` flag, the result reported by the
inner source (`Except IoError Nat`, the count of bytes claimed produced), and
the contents of the caller's buffer after the inner source wrote into it.  A
single call to `fill_buf` is a pure function of `terminated` and the inner
source's result (`Except IoError (List Byte)`, the borrowed buffer).  Each
function returns the Rust result together with the new `terminated` flag.

For end-to-end theorems the inner source is instantiated with the `&[u8]`
reader used by the crate's own tests: its `read` copies `min L len` leading
bytes and advances, its `fill_buf` exposes all remaining bytes, and its
`consume` drops bytes from the front.
-/

/-- Bytes, modelled as natural numbers; only comparison with `sentinel` is used. -/
abbrev Byte := Nat

/-- The sentinel byte `0x1A` (`b'\x1a'` in `src/lib.rs`). -/
def sentinel : Byte := 26

/-- The fragment of `std::io::ErrorKind` that the embedding distinguishes.
`other` corresponds to `ErrorKind::Other`, used by the wrapper's own error. -/
inductive ErrorKind where
  | other
  | notFound
  | interrupted
  | unexpectedEof
deriving DecidableEq, Repr

/-- A `std::io::Error`: a kind plus a message. -/
structure IoError where
  kind : ErrorKind
  msg : String
deriving DecidableEq, Repr

/-- The error built by `ReadToCtrlZ::read` when the inner source reports more
bytes than the buffer holds:
`Error::new(ErrorKind::Other, "buffer smaller than amount of bytes read")`. -/
def invalidInnerSource : IoError :=
  ⟨ErrorKind.other, "buffer smaller than amount of bytes read"⟩

/-- The scan loop of `ReadToCtrlZ::read` (`for i in 0..n { ... }`), starting at
index `i` with `k` iterations left.  At each step it performs the checked
lookup `buf.get(i)` — `none` yields the `invalidInnerSource` error — and
returns `(i, true)` on the first sentinel.  Falling off the loop returns the
final index (which is `n` for a call starting at `0` with `n` iterations)
paired with `false`. -/
def readScanAux (buf : List Byte) : Nat → Nat → Except IoError (Nat × Bool)
  | i, 0 => Except.ok (i, false)
  | i, k + 1 =>
    match buf[i]? with
    | none => Except.error invalidInnerSource
    | some b =>
      if b = sentinel then Except.ok (i, true)
      else readScanAux buf (i + 1) k

namespace ReadToCtrlZ

/-- One call of `<ReadToCtrlZ as Read>::read`.  `terminated` is the flag before
the call; `innerResult` is what `self.inner.read(buf)` returned (not consulted
when already terminated); `buf` is the caller's buffer after the inner source
wrote into it.  Returns the Rust result and the flag after the call. -/
def read (terminated : Bool) (innerResult : Except IoError Nat) (buf : List Byte) :
    Except IoError Nat × Bool :=
  if terminated then (Except.ok 0, terminated)
  else
    match innerResult with
    | Except.error e => (Except.error e, terminated)
    | Except.ok n =>
      match readScanAux buf 0 n with
      | Except.error e => (Except.error e, terminated)
      | Except.ok (i, found) => (Except.ok i, found)

end ReadToCtrlZ

/-- The scan loop of `ReadToCtrlZ::fill_buf` (`for i in 0..buf.len()`): the
index of the first sentinel byte, if any. -/
def fillScan : List Byte → Option Nat
  | [] => none
  | b :: rest =>
    if b = sentinel then some 0
    else Option.map (fun j => j + 1) (fillScan rest)

namespace ReadToCtrlZ

/-- One call of `<ReadToCtrlZ as BufRead>::fill_buf`.  `innerResult` is what
`self.inner.fill_buf()` returned (not consulted when already terminated).
Returns the borrowed view and the flag after the call: on a sentinel at
position `i` the view is `buf[0..i]` and the flag is set only when `i == 0`. -/
def fill_buf (terminated : Bool) (innerResult : Except IoError (List Byte)) :
    Except IoError (List Byte) × Bool :=
  if terminated then (Except.ok [], terminated)
  else
    match innerResult with
    | Except.error e => (Except.error e, terminated)
    | Except.ok buf =>
      match fillScan buf with
      | some i => (Except.ok (buf.take i), if i = 0 then true else terminated)
      | none => (Except.ok buf, terminated)

/-- `<ReadToCtrlZ as BufRead>::consume` forwards to the inner source and leaves
the wrapper's flag untouched; its effect on the wrapper state is the identity. -/
def consume (terminated : Bool) (amount : Nat) : Bool :=
  terminated

end ReadToCtrlZ

/-- An abstract operation on the wrapper, carrying whatever the inner source
would answer during that operation. -/
inductive Op where
  | read (innerResult : Except IoError Nat) (buf : List Byte)
  | fillBuf (innerResult : Except IoError (List Byte))
  | consume (amount : Nat)

/-- Effect of one operation on the `terminated` flag. -/
def applyOp (terminated : Bool) : Op → Bool
  | Op.read innerResult buf => (ReadToCtrlZ.read terminated innerResult buf).2
  | Op.fillBuf innerResult => (ReadToCtrlZ.fill_buf terminated innerResult).2
  | Op.consume amount => ReadToCtrlZ.consume terminated amount

/-- State of `ReadToCtrlZ` wrapped around the `&[u8]` inner reader used by the
crate's tests: the bytes the slice still holds, and the wrapper's flag. -/
structure SliceState where
  data : List Byte
  terminated : Bool
deriving DecidableEq, Repr

/-- One wrapper `read` over the slice inner source with a caller buffer of
length `L`.  When not terminated, `<&[u8] as Read>::read` copies the leading
`min L len` bytes into the buffer, reports that count, and advances the slice
by the same amount; the wrapper then runs its scan on those bytes. -/
def stepRead (s : SliceState) (L : Nat) : Except IoError Nat × SliceState :=
  if s.terminated then (Except.ok 0, s)
  else
    match ReadToCtrlZ.read false (Except.ok (s.data.take L).length) (s.data.take L) with
    | (r, t) => (r, ⟨s.data.drop L, t⟩)

/-- One wrapper `fill_buf` over the slice inner source:
`<&[u8] as BufRead>::fill_buf` exposes all remaining bytes without advancing. -/
def stepFill (s : SliceState) : Except IoError (List Byte) × SliceState :=
  match ReadToCtrlZ.fill_buf s.terminated (Except.ok s.data) with
  | (r, t) => (r, ⟨s.data, t⟩)

/-- One wrapper `consume` over the slice inner source:
`<&[u8] as BufRead>::consume` drops `amount` bytes from the front. -/
def stepConsume (s : SliceState) (amount : Nat) : SliceState :=
  ⟨s.data.drop amount, ReadToCtrlZ.consume s.terminated amount⟩

/-- Driving the copy-read contract to exhaustion (the `read_to_end` pattern):
call `read` with a buffer of length `L`, stop on an error or a zero count,
otherwise append the first `m` buffer bytes and repeat.  `fuel` bounds the
number of iterations; `data.length + 1` is always enough when `0 < L`. -/
def readAll (L : Nat) : Nat → SliceState → List Byte × SliceState
  | 0, s => ([], s)
  | fuel + 1, s =>
    match stepRead s L with
    | (Except.error _, s2) => ([], s2)
    | (Except.ok m, s2) =>
      if m = 0 then ([], s2)
      else
        ((s.data.take L).take m ++ (readAll L fuel s2).1, (readAll L fuel s2).2)

/-- Driving the peek/consume contract to exhaustion: call `fill_buf`, stop on
an error or an empty view, otherwise consume exactly the view's length, append
the view and repeat. -/
def bufReadAll : Nat → SliceState → List Byte × SliceState
  | 0, s => ([], s)
  | fuel + 1, s =>
    match stepFill s with
    | (Except.error _, s2) => ([], s2)
    | (Except.ok v, s2) =>
      if v.length = 0 then ([], s2)
      else
        (v ++ (bufReadAll fuel (stepConsume s2 v.length)).1,
         (bufReadAll fuel (stepConsume s2 v.length)).2)

/-- The intended overall behaviour, written from the spec: keep bytes up to,
and not including, the first sentinel. -/
def truncAtSentinel : List Byte → List Byte
  | [] => []
  | b :: rest => if b = sentinel then [] else b :: truncAtSentinel rest

/-! ### Behaviour of the `read` scan loop -/

theorem readScanAux_no_sentinel (buf : List Byte) (k : Nat) :
    ∀ i, i + k ≤ buf.length →
      (∀ j, j < k → buf[i + j]? ≠ some sentinel) →
      readScanAux buf i k = Except.ok (i + k, false) := by
  induction k with
  | zero => intro i _ _; simp [readScanAux]
  | succ k ih =>
    intro i hlen hno
    have hi : i < buf.length := by omega
    have hb : buf[i]? = some buf[i] := List.getElem?_eq_getElem hi
    have hbs : buf[i] ≠ sentinel := by
      intro h
      exact hno 0 (Nat.succ_pos k) (by simpa [h] using hb)
    have harith : i + (k + 1) = (i + 1) + k := by omega
    rw [harith]
    simp only [readScanAux, hb, if_neg hbs]
    exact ih (i + 1) (by omega) (fun j hj => by
      have := hno (j + 1) (by omega)
      simpa [Nat.add_assoc, Nat.add_comm 1 j] using this)

theorem readScanAux_found (buf : List Byte) (k : Nat) :
    ∀ i p, i ≤ p → p < i + k → buf[p]? = some sentinel →
      (∀ j, i ≤ j → j < p → buf[j]? ≠ some sentinel) →
      readScanAux buf i k = Except.ok (p, true) := by
  induction k with
  | zero => intro i p h1 h2 _ _; omega
  | succ k ih =>
    intro i p h1 h2 hp hno
    rcases Nat.eq_or_lt_of_le h1 with heq | hlt
    · subst heq
      simp [readScanAux, hp]
    · have hplen : p < buf.length := (List.getElem?_eq_some_iff.mp hp).1
      have hi : i < buf.length := by omega
      have hb : buf[i]? = some buf[i] := List.getElem?_eq_getElem hi
      have hbs : buf[i] ≠ sentinel := by
        intro h
        exact hno i (Nat.le_refl i) hlt (by simpa [h] using hb)
      simp only [readScanAux, hb, if_neg hbs]
      exact ih (i + 1) p hlt (by omega) hp (fun j hj1 hj2 => hno j (by omega) hj2)

theorem readScanAux_overflow (buf : List Byte) (k : Nat) :
    ∀ i, buf.length < i + k → i ≤ buf.length →
      (∀ j, i ≤ j → j < buf.length → buf[j]? ≠ some sentinel) →
      readScanAux buf i k = Except.error invalidInnerSource := by
  induction k with
  | zero => intro i h1 h2 _; omega
  | succ k ih =>
    intro i h1 h2 hno
    rcases Nat.eq_or_lt_of_le h2 with heq | hlt
    · have hb : buf[i]? = none := List.getElem?_eq_none (by omega)
      simp [readScanAux, hb]
    · have hb : buf[i]? = some buf[i] := List.getElem?_eq_getElem hlt
      have hbs : buf[i] ≠ sentinel := by
        intro h
        exact hno i (Nat.le_refl i) hlt (by simpa [h] using hb)
      simp only [readScanAux, hb, if_neg hbs]
      exact ih (i + 1) (by omega) (by omega) (fun j hj1 hj2 => hno j (by omega) hj2)

theorem readScanAux_ok_clean (buf : List Byte) (k : Nat) :
    ∀ i m found, readScanAux buf i k = Except.ok (m, found) →
      ∀ j, i ≤ j → j < m → buf[j]? ≠ some sentinel := by
  induction k with
  | zero =>
    intro i m found h j hj1 hj2
    simp [readScanAux] at h
    omega
  | succ k ih =>
    intro i m found h j hj1 hj2
    rcases hb : buf[i]? with _ | b
    · simp [readScanAux, hb] at h
    · by_cases hbs : b = sentinel
      · simp [readScanAux, hb, hbs] at h
        omega
      · simp only [readScanAux, hb, if_neg hbs] at h
        rcases Nat.eq_or_lt_of_le hj1 with heq | hlt
        · subst heq
          rw [hb]
          intro hcontr
          exact hbs (by injection hcontr)
        · exact ih (i + 1) m found h j hlt hj2

/-! ### Behaviour of the `fill_buf` scan loop -/

theorem fillScan_eq_none_iff (buf : List Byte) : fillScan buf = none ↔ sentinel ∉ buf := by
  induction buf with
  | nil => simp [fillScan]
  | cons b rest ih =>
    by_cases hb : b = sentinel
    · simp [fillScan, hb]
    · simp [fillScan, hb, Option.map_eq_none', ih, Ne.symm hb]

theorem fillScan_some (buf : List Byte) :
    ∀ i, fillScan buf = some i → buf[i]? = some sentinel ∧ sentinel ∉ buf.take i := by
  induction buf with
  | nil => intro i h; simp [fillScan] at h
  | cons b rest ih =>
    intro i h
    by_cases hb : b = sentinel
    · simp [fillScan, hb] at h
      subst h
      simp [hb]
    · simp [fillScan, hb, Option.map_eq_some'] at h
      obtain ⟨j, hj, rfl⟩ := h
      obtain ⟨h1, h2⟩ := ih j hj
      constructor
      · simpa using h1
      · intro hmem
        rcases List.mem_cons.mp (by simpa [List.take_succ_cons] using hmem) with h3 | h3
        · exact hb h3.symm
        · exact h2 h3

theorem fillScan_first (buf : List Byte) :
    ∀ i, buf[i]? = some sentinel → (∀ j, j < i → buf[j]? ≠ some sentinel) →
      fillScan buf = some i := by
  induction buf with
  | nil => intro i h _; simp at h
  | cons b rest ih =>
    intro i h hno
    cases i with
    | zero =>
      rw [List.getElem?_cons_zero] at h
      have hb : b = sentinel := by injection h
      simp [fillScan, hb]
    | succ i =>
      have hb : b ≠ sentinel := by
        intro hcontr
        exact hno 0 (Nat.succ_pos i) (by simp [hcontr])
      rw [List.getElem?_cons_succ] at h
      have hrest := ih i h (fun j hj => by
        have := hno (j + 1) (by omega)
        simpa using this)
      simp [fillScan, hb, hrest]

/-- Bridging `sentinel ∉ buf.take i` with the index-wise form. -/
theorem not_mem_take_iff (buf : List Byte) (i : Nat) :
    sentinel ∉ buf.take i ↔ ∀ j, j < i → buf[j]? ≠ some sentinel := by
  constructor
  · intro h j hj hc
    apply h
    rw [List.mem_iff_getElem?]
    exact ⟨j, by rw [List.getElem?_take_of_lt hj]; exact hc⟩
  · intro h hc
    rw [List.mem_iff_getElem?] at hc
    obtain ⟨j, hj⟩ := hc
    have hjlen : j < (buf.take i).length := (List.getElem?_eq_some_iff.mp hj).1
    have hji : j < i := Nat.lt_of_lt_of_le hjlen (List.length_take_le i buf)
    exact h j hji (by rw [← List.getElem?_take_of_lt hji]; exact hj)

theorem readScanAux_found_sentinel (buf : List Byte) (k : Nat) :
    ∀ i m, readScanAux buf i k = Except.ok (m, true) → buf[m]? = some sentinel := by
  induction k with
  | zero => intro i m h; simp [readScanAux] at h
  | succ k ih =>
    intro i m h
    rcases hb : buf[i]? with _ | b
    · simp [readScanAux, hb] at h
    · by_cases hbs : b = sentinel
      · simp [readScanAux, hb, hbs] at h
        rw [← h, hb, hbs]
      · simp only [readScanAux, hb, if_neg hbs] at h
        exact ih (i + 1) m h

/-! ### The spec-side truncation function -/

theorem truncAtSentinel_of_not_mem (S : List Byte) (h : sentinel ∉ S) :
    truncAtSentinel S = S := by
  induction S with
  | nil => rfl
  | cons b rest ih =>
    rw [List.mem_cons] at h
    push_neg at h
    simp [truncAtSentinel, Ne.symm h.1, ih h.2]

theorem truncAtSentinel_head (S : List Byte) (h : S[0]? = some sentinel) :
    truncAtSentinel S = [] := by
  cases S with
  | nil => simp at h
  | cons b rest =>
    rw [List.getElem?_cons_zero] at h
    have hb : b = sentinel := by injection h
    simp [truncAtSentinel, hb]

theorem truncAtSentinel_take (n : Nat) (S : List Byte) (h : sentinel ∉ S.take n) :
    truncAtSentinel S = S.take n ++ truncAtSentinel (S.drop n) := by
  induction n generalizing S with
  | zero => simp
  | succ n ih =>
    cases S with
    | nil => simp [truncAtSentinel]
    | cons b rest =>
      rw [List.take_succ_cons, List.mem_cons] at h
      push_neg at h
      simp [truncAtSentinel, Ne.symm h.1, ih rest h.2]

theorem truncAtSentinel_append_sentinel (A B : List Byte) (h : sentinel ∉ A) :
    truncAtSentinel (A ++ sentinel :: B) = A := by
  induction A with
  | nil => simp [truncAtSentinel]
  | cons a rest ih =>
    rw [List.mem_cons] at h
    push_neg at h
    simp [truncAtSentinel, Ne.symm h.1, ih h.2]

/-! ### One-call characterisations over the slice inner source -/

theorem readScanAux_full (chunk : List Byte) :
    readScanAux chunk 0 chunk.length =
      match fillScan chunk with
      | some i => Except.ok (i, true)
      | none => Except.ok (chunk.length, false) := by
  cases h : fillScan chunk with
  | none =>
    have hno := (fillScan_eq_none_iff chunk).mp h
    have hidx : ∀ j, j < chunk.length → chunk[0 + j]? ≠ some sentinel := by
      intro j hj hc
      exact hno (List.mem_iff_getElem?.mpr ⟨j, by simpa using hc⟩)
    simpa using readScanAux_no_sentinel chunk chunk.length 0 (by omega) hidx
  | some i =>
    obtain ⟨h1, h2⟩ := fillScan_some chunk i h
    have hi : i < chunk.length := (List.getElem?_eq_some_iff.mp h1).1
    have hno := (not_mem_take_iff chunk i).mp h2
    exact readScanAux_found chunk chunk.length 0 i (Nat.zero_le i) (by omega) h1
      (fun j _ hj => hno j hj)

theorem read_full (buf : List Byte) :
    ReadToCtrlZ.read false (Except.ok buf.length) buf =
      match fillScan buf with
      | some i => (Except.ok i, true)
      | none => (Except.ok buf.length, false) := by
  cases h : fillScan buf with
  | none => simp [ReadToCtrlZ.read, readScanAux_full buf, h]
  | some i => simp [ReadToCtrlZ.read, readScanAux_full buf, h]

theorem stepRead_terminated (d : List Byte) (L : Nat) :
    stepRead ⟨d, true⟩ L = (Except.ok 0, ⟨d, true⟩) := by
  simp [stepRead]

theorem stepRead_active_found (S : List Byte) (L i : Nat)
    (h : fillScan (S.take L) = some i) :
    stepRead ⟨S, false⟩ L = (Except.ok i, ⟨S.drop L, true⟩) := by
  have hr := read_full (S.take L)
  rw [h] at hr
  simp only [stepRead, hr]
  rfl

theorem stepRead_active_clean (S : List Byte) (L : Nat)
    (h : fillScan (S.take L) = none) :
    stepRead ⟨S, false⟩ L = (Except.ok (S.take L).length, ⟨S.drop L, false⟩) := by
  have hr := read_full (S.take L)
  rw [h] at hr
  simp only [stepRead, hr]
  rfl

theorem stepFill_terminated (d : List Byte) :
    stepFill ⟨d, true⟩ = (Except.ok [], ⟨d, true⟩) := by
  simp [stepFill, ReadToCtrlZ.fill_buf]

theorem stepFill_active_found (S : List Byte) (i : Nat) (h : fillScan S = some i) :
    stepFill ⟨S, false⟩ =
      (Except.ok (S.take i), ⟨S, if i = 0 then true else false⟩) := by
  simp only [stepFill, ReadToCtrlZ.fill_buf, h]
  rfl

theorem stepFill_active_clean (S : List Byte) (h : fillScan S = none) :
    stepFill ⟨S, false⟩ = (Except.ok S, ⟨S, false⟩) := by
  simp only [stepFill, ReadToCtrlZ.fill_buf, h]
  rfl

/-! ### Driving the two contracts to exhaustion -/

theorem readAll_succ_ok (L fuel : Nat) (s s2 : SliceState) (m : Nat)
    (h : stepRead s L = (Except.ok m, s2)) :
    readAll L (fuel + 1) s =
      if m = 0 then ([], s2)
      else ((s.data.take L).take m ++ (readAll L fuel s2).1, (readAll L fuel s2).2) := by
  rw [readAll, h]

theorem bufReadAll_succ_ok (fuel : Nat) (s s2 : SliceState) (v : List Byte)
    (h : stepFill s = (Except.ok v, s2)) :
    bufReadAll (fuel + 1) s =
      if v.length = 0 then ([], s2)
      else (v ++ (bufReadAll fuel (stepConsume s2 v.length)).1,
            (bufReadAll fuel (stepConsume s2 v.length)).2) := by
  rw [bufReadAll, h]

theorem readAll_terminated (L fuel : Nat) : ∀ d,
    readAll L fuel ⟨d, true⟩ = ([], ⟨d, true⟩) := by
  cases fuel with
  | zero => intro d; rfl
  | succ fuel =>
    intro d
    rw [readAll_succ_ok L fuel _ _ 0 (stepRead_terminated d L)]
    simp

theorem bufReadAll_terminated (fuel : Nat) : ∀ d,
    bufReadAll fuel ⟨d, true⟩ = ([], ⟨d, true⟩) := by
  cases fuel with
  | zero => intro d; rfl
  | succ fuel =>
    intro d
    rw [bufReadAll_succ_ok fuel _ _ [] (stepFill_terminated d)]
    simp

theorem readAll_spec (L : Nat) (hL : 0 < L) :
    ∀ fuel S, S.length < fuel →
      (readAll L fuel ⟨S, false⟩).1 = truncAtSentinel S ∧
      (readAll L fuel ⟨S, false⟩).2.terminated = decide (sentinel ∈ S) := by
  intro fuel
  induction fuel with
  | zero => intro S h; omega
  | succ fuel ih =>
    intro S hS
    cases h : fillScan (S.take L) with
    | some i =>
      have hstep := stepRead_active_found S L i h
      obtain ⟨hsent, hclean⟩ := fillScan_some (S.take L) i h
      have hiL : i < (S.take L).length := (List.getElem?_eq_some_iff.mp hsent).1
      have hiL2 : i < L := Nat.lt_of_lt_of_le hiL (List.length_take_le L S)
      have hSi : S[i]? = some sentinel := by
        rw [← List.getElem?_take_of_lt hiL2]; exact hsent
      have hmemS : sentinel ∈ S := List.mem_iff_getElem?.mpr ⟨i, hSi⟩
      rw [readAll_succ_ok L fuel _ _ i hstep]
      by_cases hi0 : i = 0
      · subst hi0
        rw [if_pos rfl]
        exact ⟨(truncAtSentinel_head S hSi).symm, by simp [hmemS]⟩
      · rw [if_neg hi0, readAll_terminated]
        refine ⟨?_, by simp [hmemS]⟩
        show ((⟨S, false⟩ : SliceState).data.take L).take i ++ [] = truncAtSentinel S
        have htakei : (S.take L).take i = S.take i := by
          rw [List.take_take]
          congr 1
          omega
        have hcleanS : sentinel ∉ S.take i := by rw [← htakei]; exact hclean
        have hdrophead : (S.drop i)[0]? = some sentinel := by
          rw [List.getElem?_drop]
          simpa using hSi
        rw [List.append_nil]
        show (S.take L).take i = truncAtSentinel S
        rw [htakei, truncAtSentinel_take i S hcleanS, truncAtSentinel_head _ hdrophead,
          List.append_nil]
    | none =>
      have hstep := stepRead_active_clean S L h
      have hclean : sentinel ∉ S.take L := (fillScan_eq_none_iff _).mp h
      have hlen : (S.take L).length = min L S.length := List.length_take L S
      rw [readAll_succ_ok L fuel _ _ _ hstep]
      by_cases hn : (S.take L).length = 0
      · have hSnil : S = [] := by
          rcases List.take_eq_nil_iff.mp (List.length_eq_zero.mp hn) with h1 | h1
          · omega
          · exact h1
        subst hSnil
        rw [if_pos hn]
        exact ⟨rfl, rfl⟩
      · rw [if_neg hn]
        have hSpos : 0 < S.length := by omega
        have hfuel : (S.drop L).length < fuel := by
          rw [List.length_drop]
          omega
        obtain ⟨ih1, ih2⟩ := ih (S.drop L) hfuel
        have hmem : decide (sentinel ∈ S) = decide (sentinel ∈ S.drop L) := by
          rw [decide_eq_decide]
          constructor
          · intro hm
            rw [← List.take_append_drop L S] at hm
            rcases List.mem_append.mp hm with h1 | h1
            · exact absurd h1 hclean
            · exact h1
          · intro hm
            rw [← List.take_append_drop L S]
            exact List.mem_append.mpr (Or.inr hm)
        refine ⟨?_, ?_⟩
        · show ((⟨S, false⟩ : SliceState).data.take L).take (S.take L).length ++
              (readAll L fuel ⟨S.drop L, false⟩).1 = truncAtSentinel S
          rw [List.take_length, ih1, truncAtSentinel_take L S hclean]
        · show (readAll L fuel ⟨S.drop L, false⟩).2.terminated = decide (sentinel ∈ S)
          rw [ih2, hmem]

theorem bufReadAll_spec :
    ∀ fuel S, S.length < fuel →
      (bufReadAll fuel ⟨S, false⟩).1 = truncAtSentinel S ∧
      (bufReadAll fuel ⟨S, false⟩).2.terminated = decide (sentinel ∈ S) := by
  intro fuel
  induction fuel with
  | zero => intro S h; omega
  | succ fuel ih =>
    intro S hS
    cases h : fillScan S with
    | some i =>
      have hstep := stepFill_active_found S i h
      obtain ⟨hsent, hclean⟩ := fillScan_some S i h
      have hi : i < S.length := (List.getElem?_eq_some_iff.mp hsent).1
      have hmemS : sentinel ∈ S := List.mem_iff_getElem?.mpr ⟨i, hsent⟩
      rw [bufReadAll_succ_ok fuel _ _ _ hstep]
      by_cases hi0 : i = 0
      · subst hi0
        rw [if_pos (by simp)]
        exact ⟨(truncAtSentinel_head S hsent).symm, by simp [hmemS]⟩
      · have hvlen : (S.take i).length = i := by
          rw [List.length_take]; omega
        rw [if_neg (by rw [hvlen]; exact hi0)]
        simp only [if_neg hi0, stepConsume, ReadToCtrlZ.consume, hvlen]
        have hfuel : (S.drop i).length < fuel := by
          rw [List.length_drop]; omega
        obtain ⟨ih1, ih2⟩ := ih (S.drop i) hfuel
        have hdrophead : (S.drop i)[0]? = some sentinel := by
          rw [List.getElem?_drop]; simpa using hsent
        have hmemdrop : sentinel ∈ S.drop i := List.mem_iff_getElem?.mpr ⟨0, hdrophead⟩
        refine ⟨?_, ?_⟩
        · show S.take i ++ (bufReadAll fuel ⟨S.drop i, false⟩).1 = truncAtSentinel S
          rw [ih1, truncAtSentinel_take i S hclean]
        · show (bufReadAll fuel ⟨S.drop i, false⟩).2.terminated = decide (sentinel ∈ S)
          rw [ih2]
          simp [hmemdrop, hmemS]
    | none =>
      have hstep := stepFill_active_clean S h
      have hclean : sentinel ∉ S := (fillScan_eq_none_iff _).mp h
      rw [bufReadAll_succ_ok fuel _ _ _ hstep]
      by_cases hn : S.length = 0
      · rw [if_pos hn]
        have hnil : S = [] := List.length_eq_zero.mp hn
        subst hnil
        exact ⟨rfl, rfl⟩
      · rw [if_neg hn]
        simp only [stepConsume, ReadToCtrlZ.consume]
        have hdrop : S.drop S.length = [] := List.drop_length S
        obtain ⟨ih1, ih2⟩ := ih (S.drop S.length) (by rw [List.length_drop]; omega)
        refine ⟨?_, ?_⟩
        · show S ++ (bufReadAll fuel ⟨S.drop S.length, false⟩).1 = truncAtSentinel S
          rw [ih1, hdrop, truncAtSentinel_of_not_mem S hclean]
          simp [truncAtSentinel]
        · show (bufReadAll fuel ⟨S.drop S.length, false⟩).2.terminated =
              decide (sentinel ∈ S)
          rw [ih2, hdrop]
          simp [hclean]

/-! ### Claims -/

/-- C1: Copy-read postcondition — for a non-terminated reader whose inner
source successfully produces `n` bytes into the caller's buffer, if the first
sentinel within positions `0..n` is at `i` then `read` returns `Ok(i)` and sets
`terminated`; if no position in `0..n` holds the sentinel, `read` returns
`Ok(n)` and `terminated` stays false. -/
theorem C1_copy_read_postcondition (buf : List Byte) (n : Nat) (hn : n ≤ buf.length) :
    (∀ i, i < n → buf[i]? = some sentinel → (∀ j, j < i → buf[j]? ≠ some sentinel) →
        ReadToCtrlZ.read false (Except.ok n) buf = (Except.ok i, true))
  ∧ ((∀ j, j < n → buf[j]? ≠ some sentinel) →
        ReadToCtrlZ.read false (Except.ok n) buf = (Except.ok n, false)) := by
  constructor
  · intro i hi hsent hno
    have h := readScanAux_found buf n 0 i (Nat.zero_le i) (by omega) hsent
      (fun j _ hj => hno j hj)
    simp [ReadToCtrlZ.read, h]
  · intro hno
    have h := readScanAux_no_sentinel buf n 0 (by omega)
      (fun j hj => by simpa using hno j hj)
    simp [ReadToCtrlZ.read, h]

theorem C1_copy_read_postcondition_witness :
    ReadToCtrlZ.read false (Except.ok 3) [5, 26, 7] = (Except.ok 1, true) :=
  (C1_copy_read_postcondition [5, 26, 7] 3 (by decide)).1 1 (by decide) (by decide)
    (by decide)

/-- C2: Peek-read postcondition — `fill_buf` returns an empty view when
already terminated; otherwise, on inner buffer `buf`, a first sentinel at `i`
yields the view `buf[0..i]` with `terminated` set exactly when `i = 0`, and a
sentinel-free buffer is returned whole with the flag untouched. -/
theorem C2_peek_read_postcondition :
    (∀ innerResult, ReadToCtrlZ.fill_buf true innerResult = (Except.ok [], true))
  ∧ (∀ buf i, buf[i]? = some sentinel → (∀ j, j < i → buf[j]? ≠ some sentinel) →
      ReadToCtrlZ.fill_buf false (Except.ok buf) =
        (Except.ok (buf.take i), decide (i = 0)))
  ∧ (∀ buf, sentinel ∉ buf →
      ReadToCtrlZ.fill_buf false (Except.ok buf) = (Except.ok buf, false)) := by
  refine ⟨fun innerResult => rfl, ?_, ?_⟩
  · intro buf i hsent hno
    have h := fillScan_first buf i hsent hno
    by_cases hi : i = 0 <;> simp [ReadToCtrlZ.fill_buf, h, hi]
  · intro buf hmem
    have h := (fillScan_eq_none_iff buf).mpr hmem
    simp [ReadToCtrlZ.fill_buf, h]

theorem C2_peek_read_postcondition_witness :
    ReadToCtrlZ.fill_buf false (Except.ok [7, 26, 9]) = (Except.ok [7], false) :=
  C2_peek_read_postcondition.2.1 [7, 26, 9] 1 (by decide) (by decide)

/-- C3: Absorbing termination invariant — once `terminated` is true, `read`
returns `Ok(0)` and `fill_buf` returns an empty view whatever the inner source
would answer (it is not consulted), and no sequence of `read`/`fill_buf`/
`consume` operations ever resets the flag to false. -/
theorem C3_terminated_absorbing :
    (∀ innerResult buf, ReadToCtrlZ.read true innerResult buf = (Except.ok 0, true))
  ∧ (∀ innerResult, ReadToCtrlZ.fill_buf true innerResult = (Except.ok [], true))
  ∧ (∀ ops : List Op, List.foldl applyOp true ops = true) := by
  refine ⟨fun innerResult buf => rfl, fun innerResult => rfl, ?_⟩
  intro ops
  induction ops with
  | nil => rfl
  | cons op rest ih =>
    have h : applyOp true op = true := by cases op <;> rfl
    rw [List.foldl_cons, h, ih]

/-- C4: End-to-end truncation over the slice inner source — a sentinel-free
stream is passed through whole by both contracts; a stream `A ++ 0x1A :: B`
with `A` sentinel-free yields exactly `A` under both contracts, leaves the
wrapper terminated, and any subsequent `read`/`fill_buf` on a terminated state
yields zero bytes / an empty view, regardless of `B`. -/
theorem C4_end_to_end_truncation (L : Nat) (hL : 0 < L) (S A B : List Byte) :
    (sentinel ∉ S →
        (readAll L (S.length + 1) ⟨S, false⟩).1 = S ∧
        (bufReadAll (S.length + 1) ⟨S, false⟩).1 = S)
  ∧ (sentinel ∉ A →
        (readAll L ((A ++ sentinel :: B).length + 1) ⟨A ++ sentinel :: B, false⟩).1 = A ∧
        (readAll L ((A ++ sentinel :: B).length + 1)
            ⟨A ++ sentinel :: B, false⟩).2.terminated = true ∧
        (bufReadAll ((A ++ sentinel :: B).length + 1) ⟨A ++ sentinel :: B, false⟩).1 = A ∧
        (bufReadAll ((A ++ sentinel :: B).length + 1)
            ⟨A ++ sentinel :: B, false⟩).2.terminated = true)
  ∧ (∀ d L2, stepRead ⟨d, true⟩ L2 = (Except.ok 0, ⟨d, true⟩))
  ∧ (∀ d, stepFill ⟨d, true⟩ = (Except.ok [], ⟨d, true⟩)) := by
  refine ⟨?_, ?_, fun d L2 => stepRead_terminated d L2, fun d => stepFill_terminated d⟩
  · intro hS
    have h1 := readAll_spec L hL (S.length + 1) S (by omega)
    have h2 := bufReadAll_spec (S.length + 1) S (by omega)
    have htr := truncAtSentinel_of_not_mem S hS
    exact ⟨by rw [h1.1, htr], by rw [h2.1, htr]⟩
  · intro hA
    have h1 := readAll_spec L hL ((A ++ sentinel :: B).length + 1) (A ++ sentinel :: B)
      (by omega)
    have h2 := bufReadAll_spec ((A ++ sentinel :: B).length + 1) (A ++ sentinel :: B)
      (by omega)
    have hmem : sentinel ∈ A ++ sentinel :: B :=
      List.mem_append.mpr (Or.inr (List.mem_cons.mpr (Or.inl rfl)))
    have htr := truncAtSentinel_append_sentinel A B hA
    exact ⟨by rw [h1.1, htr], by rw [h1.2]; simp [hmem],
           by rw [h2.1, htr], by rw [h2.2]; simp [hmem]⟩

theorem C4_end_to_end_truncation_witness :
    (readAll 1 4 ⟨[3, 26, 4], false⟩).1 = [3] ∧
    (bufReadAll 3 ⟨[1, 2], false⟩).1 = [1, 2] :=
  ⟨((C4_end_to_end_truncation 1 (by decide) [1, 2] [3] [4]).2.1 (by decide)).1,
   ((C4_end_to_end_truncation 1 (by decide) [1, 2] [3] [4]).1 (by decide)).2⟩

/-- C5 counterexample: with a one-byte buffer holding the sentinel and an
inner source reporting a count of `2 > 1`, `read` does not fail — it returns
`Ok(0)` with `terminated` set, because the scan finds the sentinel before
reaching the out-of-bounds index. -/
theorem C5_counterexample :
    List.length [sentinel] < 2 ∧
    ReadToCtrlZ.read false (Except.ok 2) [sentinel] = (Except.ok 0, true) :=
  ⟨by decide, rfl⟩

/-- C5 (amended): if the inner source reports `n` greater than the buffer
length and no position of the buffer holds the sentinel, `read` fails with the
generic-kind error "buffer smaller than amount of bytes read" and leaves
`terminated` false; an early sentinel instead short-circuits to `Ok(i)`. -/
theorem C5_contract_violation_error (buf : List Byte) (n : Nat) (hn : buf.length < n)
    (hno : ∀ j, j < buf.length → buf[j]? ≠ some sentinel) :
    ReadToCtrlZ.read false (Except.ok n) buf =
      (Except.error ⟨ErrorKind.other, "buffer smaller than amount of bytes read"⟩,
       false) := by
  have h := readScanAux_overflow buf n 0 (by omega) (Nat.zero_le _)
    (fun j _ hj => hno j hj)
  simp [ReadToCtrlZ.read, h, invalidInnerSource]

theorem C5_contract_violation_error_witness :
    ReadToCtrlZ.read false (Except.ok 1) [] =
      (Except.error ⟨ErrorKind.other, "buffer smaller than amount of bytes read"⟩,
       false) :=
  C5_contract_violation_error [] 1 (by decide) (by decide)

/-- C6: Sentinel never exposed — a successful `read` never counts a sentinel
position among the bytes it reports, and a view returned by `fill_buf` never
contains the sentinel. -/
theorem C6_sentinel_never_exposed :
    (∀ terminated innerResult buf m t2,
        ReadToCtrlZ.read terminated innerResult buf = (Except.ok m, t2) →
        ∀ j, j < m → buf[j]? ≠ some sentinel)
  ∧ (∀ terminated innerResult v t2,
        ReadToCtrlZ.fill_buf terminated innerResult = (Except.ok v, t2) →
        sentinel ∉ v) := by
  constructor
  · intro t r buf m t2 h j hj
    cases t with
    | true =>
      simp [ReadToCtrlZ.read] at h
      omega
    | false =>
      cases r with
      | error e => simp [ReadToCtrlZ.read] at h
      | ok n =>
        rcases hscan : readScanAux buf 0 n with e | ⟨m2, found⟩
        · simp [ReadToCtrlZ.read, hscan] at h
        · simp [ReadToCtrlZ.read, hscan] at h
          obtain ⟨h1, h2⟩ := h
          subst h1
          exact readScanAux_ok_clean buf n 0 _ found hscan j (Nat.zero_le j) hj
  · intro t r v t2 h
    cases t with
    | true =>
      simp [ReadToCtrlZ.fill_buf] at h
      obtain ⟨h1, h2⟩ := h
      subst h1
      simp
    | false =>
      cases r with
      | error e => simp [ReadToCtrlZ.fill_buf] at h
      | ok buf =>
        rcases hscan : fillScan buf with _ | i
        · have hmem := (fillScan_eq_none_iff buf).mp hscan
          simp [ReadToCtrlZ.fill_buf, hscan] at h
          obtain ⟨h1, h2⟩ := h
          subst h1
          exact hmem
        · obtain ⟨hsent, hclean⟩ := fillScan_some buf i hscan
          simp [ReadToCtrlZ.fill_buf, hscan] at h
          obtain ⟨h1, h2⟩ := h
          subst h1
          exact hclean

theorem C6_sentinel_never_exposed_witness : ([3, 4] : List Byte)[0]? ≠ some sentinel :=
  C6_sentinel_never_exposed.1 false (Except.ok 2) [3, 4] 2 false rfl 0 (by decide)

/-- C7: Peek/consume refines copy-read — over the same underlying slice data,
the fill\_buf/consume loop and the copy-read loop produce the same
concatenated output. -/
theorem C7_peek_consume_refines_copy_read (L : Nat) (hL : 0 < L) (S : List Byte) :
    (bufReadAll (S.length + 1) ⟨S, false⟩).1 =
      (readAll L (S.length + 1) ⟨S, false⟩).1 := by
  rw [(bufReadAll_spec (S.length + 1) S (by omega)).1,
    (readAll_spec L hL (S.length + 1) S (by omega)).1]

theorem C7_peek_consume_refines_copy_read_witness :
    (bufReadAll 4 ⟨[7, 26, 9], false⟩).1 = (readAll 2 4 ⟨[7, 26, 9], false⟩).1 :=
  C7_peek_consume_refines_copy_read 2 (by decide) [7, 26, 9]

/-- C8: Error propagation and atomicity — an inner error is returned to the
caller unchanged by both `read` and `fill_buf`, and any erroring call leaves
the `terminated` flag exactly as it was before the call. -/
theorem C8_error_propagation :
    (∀ e buf, ReadToCtrlZ.read false (Except.error e) buf = (Except.error e, false))
  ∧ (∀ e, ReadToCtrlZ.fill_buf false (Except.error e) = (Except.error e, false))
  ∧ (∀ terminated innerResult buf e t2,
        ReadToCtrlZ.read terminated innerResult buf = (Except.error e, t2) →
        t2 = terminated)
  ∧ (∀ terminated innerResult e t2,
        ReadToCtrlZ.fill_buf terminated innerResult = (Except.error e, t2) →
        t2 = terminated) := by
  refine ⟨fun e buf => rfl, fun e => rfl, ?_, ?_⟩
  · intro t r buf e t2 h
    cases t with
    | true => simp [ReadToCtrlZ.read] at h
    | false =>
      cases r with
      | error e2 =>
        simp [ReadToCtrlZ.read] at h
        exact h.2
      | ok n =>
        rcases hscan : readScanAux buf 0 n with e2 | ⟨m, found⟩
        · simp [ReadToCtrlZ.read, hscan] at h
          exact h.2
        · simp [ReadToCtrlZ.read, hscan] at h
  · intro t r e t2 h
    cases t with
    | true => simp [ReadToCtrlZ.fill_buf] at h
    | false =>
      cases r with
      | error e2 =>
        simp [ReadToCtrlZ.fill_buf] at h
        exact h.2
      | ok buf =>
        rcases hscan : fillScan buf with _ | i
        · simp [ReadToCtrlZ.fill_buf, hscan] at h
        · simp [ReadToCtrlZ.fill_buf, hscan] at h

theorem C8_error_propagation_witness :
    ReadToCtrlZ.read false (Except.error ⟨ErrorKind.interrupted, "oops"⟩) [1] =
      (Except.error ⟨ErrorKind.interrupted, "oops"⟩, false) ∧ false = false :=
  ⟨rfl, C8_error_propagation.2.2.1 false
    (Except.error ⟨ErrorKind.interrupted, "oops"⟩) [1]
    ⟨ErrorKind.interrupted, "oops"⟩ false rfl⟩

/-- C9 (implicit): the overflow check is bypassed by an early sentinel — with
a reported count `n` exceeding the buffer length, a first sentinel at a valid
position `i` still yields `Ok(i)` with `terminated` set; the
"buffer smaller than amount of bytes read" error occurs only when the scan
walks past the end of the buffer without meeting the sentinel. -/
theorem C9_overflow_check_bypassed (buf : List Byte) (n : Nat)
    (hn : buf.length < n) :
    (∀ i, buf[i]? = some sentinel → (∀ j, j < i → buf[j]? ≠ some sentinel) →
        ReadToCtrlZ.read false (Except.ok n) buf = (Except.ok i, true))
  ∧ ((∀ j, j < buf.length → buf[j]? ≠ some sentinel) →
        ReadToCtrlZ.read false (Except.ok n) buf =
          (Except.error invalidInnerSource, false)) := by
  constructor
  · intro i hsent hno
    have hi : i < buf.length := (List.getElem?_eq_some_iff.mp hsent).1
    have h := readScanAux_found buf n 0 i (Nat.zero_le i) (by omega) hsent
      (fun j _ hj => hno j hj)
    simp [ReadToCtrlZ.read, h]
  · intro hno
    have h := readScanAux_overflow buf n 0 (by omega) (Nat.zero_le _)
      (fun j _ hj => hno j hj)
    simp [ReadToCtrlZ.read, h]

theorem C9_overflow_check_bypassed_witness :
    ReadToCtrlZ.read false (Except.ok 3) [5, 26] = (Except.ok 1, true) :=
  (C9_overflow_check_bypassed [5, 26] 3 (by decide)).1 1 (by decide) (by decide)

/-- C10 (implicit): natural end-of-stream is not absorbing — a successful
inner read of `0` bytes makes the wrapper return `Ok(0)` with `terminated`
still false, a later sentinel-free production is passed through unchanged, and
the flag is only ever set by `read` when the byte at the returned count is the
sentinel. -/
theorem C10_natural_eof_not_absorbing :
    (∀ buf, ReadToCtrlZ.read false (Except.ok 0) buf = (Except.ok 0, false))
  ∧ (∀ buf n, n ≤ buf.length → (∀ j, j < n → buf[j]? ≠ some sentinel) →
        ReadToCtrlZ.read false (Except.ok n) buf = (Except.ok n, false))
  ∧ (∀ buf n m, ReadToCtrlZ.read false (Except.ok n) buf = (Except.ok m, true) →
        buf[m]? = some sentinel) := by
  refine ⟨fun buf => rfl, ?_, ?_⟩
  · intro buf n hn hno
    have h := readScanAux_no_sentinel buf n 0 (by omega)
      (fun j hj => by simpa using hno j hj)
    simp [ReadToCtrlZ.read, h]
  · intro buf n m h
    rcases hscan : readScanAux buf 0 n with e | ⟨m2, found⟩
    · simp [ReadToCtrlZ.read, hscan] at h
    · simp [ReadToCtrlZ.read, hscan] at h
      obtain ⟨h1, h2⟩ := h
      subst h1
      subst h2
      exact readScanAux_found_sentinel buf n 0 _ hscan

theorem C10_natural_eof_not_absorbing_witness :
    ReadToCtrlZ.read false (Except.ok 2) [1, 2] = (Except.ok 2, false) :=
  C10_natural_eof_not_absorbing.2.1 [1, 2] 2 (by decide) (by decide)
